import Mathlib

/-!
Shallow embedding of `pymatgen/analysis/pourbaix/maker.py` (class `PourbaixDiagram`).

Real (numpy float) arithmetic is modelled over `ℚ`.  External collaborators are
modelled as parameters or explicit data:
  * the convex-hull primitive (`pyhull.convex_hull.ConvexHull`) is a function
    argument `hull : List (List ℚ) → List (List ℕ)` returning facets as index
    triples into the input point list;
  * `np.linalg.solve` is a function argument `linsolve` that either returns a
    solution vector or signals a linear-algebra failure carrying a message
    (mirroring `np.linalg.linalg.LinAlgError`);
  * entries are records carrying the attribute contract the maker reads
    (`phase_type`, composition, reduction factor, `npH`, `nPhi`, `g0`,
    `normalization_factor`, `nH2O`, `conc_term`, `correction`).
Python exceptions are modelled with an error type threaded through `Except`.
-/

namespace Pourbaix

/-- `PREFAC = 0.0591` from the module header. -/
def PREFAC : ℚ := 591 / 10000

/-- `MU_H2O = -2.4583` from the module header. -/
def MU_H2O : ℚ := -24583 / 10000

/-- Python exceptions raised (directly or by the runtime) in `maker.py`. -/
inductive PyError where
  /-- `raise StandardError(msg)`. -/
  | standardError (msg : String)
  /-- runtime `IndexError` from indexing an empty sequence, e.g. `entries[0]`. -/
  | indexError
  /-- runtime `NameError`/`UnboundLocalError` for a name never assigned. -/
  | nameError (n : String)
  /-- an `np.linalg.linalg.LinAlgError` propagating out, carrying its message. -/
  | linAlgFailure (msg : String)
deriving DecidableEq, Repr

/-- The entry attribute contract read by `PourbaixDiagram` (entries themselves
are external to `maker.py`; compositions are association lists symbol ↦ amount,
with absent elements reading as 0 as in pymatgen's `Composition`). -/
structure PBEntry where
  phase_type : String
  comp : List (String × ℚ)
  /-- `composition.get_reduced_composition_and_factor()[1]` of the entry. -/
  red_factor : ℚ
  npH : ℚ
  nPhi : ℚ
  g0 : ℚ
  normalization_factor : ℚ
  nH2O : ℚ
  conc_term : ℚ
  correction : ℚ
deriving DecidableEq, Repr

/-- Default entry used to totalise Python list indexing (never reached on the
in-range indices the code produces). -/
def dfltEntry : PBEntry :=
  { phase_type := "", comp := [], red_factor := 1, npH := 0, nPhi := 0, g0 := 0
    normalization_factor := 1, nH2O := 0, conc_term := 0, correction := 0 }

/-- `comp_obj[Element(elt)]`: amount of element `el`, 0 when absent. -/
def compOf (e : PBEntry) (el : String) : ℚ := (e.comp.lookup el).getD 0

/-- `MultiEntry(multi_entries, weights)`: a composite over base entries and a
parallel weight vector (constructor is external to `maker.py`; the maker only
stores the two sequences). -/
structure MultiEntry where
  entries : List PBEntry
  weights : List ℚ
deriving DecidableEq, Repr

/-- The error message of `__init__`'s phase-type rejection (the Python source
spells it with a line continuation whose leading spaces stay in the string). -/
def phaseTypeErrMsg : String :=
  "Incorrect Phase type - needs to be                 Pourbaix entry of phase type Ion/Solid"

/-- `__init__` lines 46-55: partition `entries` into solid and ion lists in
input order; any other `phase_type` raises `StandardError` at that entry. -/
def classifyEntries : List PBEntry → Except PyError (List PBEntry × List PBEntry)
  | [] => .ok ([], [])
  | e :: rest =>
    if e.phase_type = "Solid" then
      match classifyEntries rest with
      | .error err => .error err
      | .ok (s, i) => .ok (e :: s, i)
    else if e.phase_type = "Ion" then
      match classifyEntries rest with
      | .error err => .error err
      | .ok (s, i) => .ok (s, e :: i)
    else .error (.standardError phaseTypeErrMsg)

/-- `self._unprocessed_entries = self._solid_entries + self._ion_entries`. -/
def unprocessedEntries (entries : List PBEntry) : Except PyError (List PBEntry) :=
  (classifyEntries entries).map (fun si => si.1 ++ si.2)

/-! ### Multi-entry synthesis (`_process_multielement_entries`) -/

/-- `'pat' in s` on character lists: `pat` occurs at the head. -/
def beginsWith : List Char → List Char → Bool
  | [], _ => true
  | _ :: _, [] => false
  | p :: ps, c :: cs => p == c && beginsWith ps cs

/-- `'pat' in s` on character lists: `pat` occurs somewhere. -/
def hasSubAux (pat : List Char) : List Char → Bool
  | [] => beginsWith pat []
  | c :: cs => beginsWith pat (c :: cs) || hasSubAux pat cs

/-- Python's substring test `pat in s`. -/
def hasSub (pat s : String) : Bool := hasSubAux pat.data s.data

/-- Outcome of `np.linalg.solve` (external): a solution vector, or a
`LinAlgError` carrying a message. -/
inductive LinSolveResult where
  | ok (w : List ℚ)
  | linAlgFailure (msg : String)
deriving DecidableEq, Repr

/-- The external linear solver `np.linalg.solve`, as a black box. -/
abbrev LinSolver := List (List ℚ) → List ℚ → LinSolveResult

/-- Reduction factor used per entry: for solids the reduced-composition factor,
otherwise `1.0` (lines 131-134 and 141-144). -/
def effRedFac (e : PBEntry) : ℚ :=
  if e.phase_type = "Solid" then e.red_factor else 1

/-- `sum_nel`: total content of the target elements in `e`, normalized by the
reduction factor (lines 135-136 and 145-147; both loops range over the same
element keys). -/
def sumNel (elt_list : List String) (e : PBEntry) : ℚ :=
  (elt_list.map (fun el => compOf e el / effRedFac e)).sum

/-- Right-hand side `b` (lines 137-138): for `i` in `1..N-1`,
`entry0[el_i]/red_fac − composition_list[i] · sum_nel`. -/
def bVec (elt_list : List String) (composition_list : List ℚ) (e0 : PBEntry) : List ℚ :=
  ((List.range elt_list.length).drop 1).map (fun i =>
    compOf e0 (elt_list.getD i "") / effRedFac e0 -
      composition_list.getD i 0 * sumNel elt_list e0)

/-- Matrix `A` (lines 127, 139-150): entry `(i-1, j-1)` is
`composition_list[i] · sum_nel_j − entry_j[el_i]/red_fac_j`.  The Python code
allocates rows per combination member and assigns transposed indices; the
combination size equals the element count, so the matrix is square and this
row-per-element layout holds the same values. -/
def aMatrix (elt_list : List String) (composition_list : List ℚ)
    (combEntries : List PBEntry) : List (List ℚ) :=
  ((List.range elt_list.length).drop 1).map (fun i =>
    ((List.range combEntries.length).drop 1).map (fun j =>
      let e := combEntries.getD j dfltEntry
      composition_list.getD i 0 * sumNel elt_list e -
        compOf e (elt_list.getD i "") / effRedFac e))

/-- `itertools.combinations(xs, n)` in lexicographic order. -/
def combinations : ℕ → List ℕ → List (List ℕ)
  | 0, _ => [[]]
  | _ + 1, [] => []
  | n + 1, x :: rest =>
    (combinations n rest).map (fun c => x :: c) ++ combinations (n + 1) rest

/-- One iteration of the loop body (lines 126-164) for a combination
`entry_list`: build `A` and `b`, solve, skip on a singular matrix
(`.ok none`), re-raise any other solver failure as
`StandardError("Unknown Error message!")`, skip unless all solved weights are
strictly positive, otherwise return the built `MultiEntry` with weight `1.0`
prepended for the pivot. -/
def processCombination (linsolve : LinSolver) (elt_list : List String)
    (composition_list : List ℚ) (entries : List PBEntry) (entry_list : List ℕ) :
    Except PyError (Option MultiEntry) :=
  let multi_entries := entry_list.map (fun j => entries.getD j dfltEntry)
  let entry0 := entries.getD (entry_list.getD 0 0) dfltEntry
  let A := aMatrix elt_list composition_list multi_entries
  let b := bVec elt_list composition_list entry0
  match linsolve A b with
  | .linAlgFailure msg =>
    if hasSub "Singular matrix" msg then .ok none
    else .error (.standardError "Unknown Error message!")
  | .ok weights =>
    if weights.all (fun w => decide (0 < w)) then
      .ok (some { entries := multi_entries, weights := 1 :: weights })
    else .ok none

/-- The enumeration loop: thread the accumulated `processed_entries` and the
loop variable `super_entry` (as an `Option`: `none` while still unassigned)
through the combinations. -/
def synthLoop (step : List ℕ → Except PyError (Option MultiEntry)) :
    List (List ℕ) → List MultiEntry → Option MultiEntry →
    Except PyError (List MultiEntry × Option MultiEntry)
  | [], acc, last => .ok (acc, last)
  | c :: rest, acc, last =>
    match step c with
    | .error err => .error err
    | .ok none => synthLoop step rest acc last
    | .ok (some se) => synthLoop step rest (acc ++ [se]) (some se)

/-- `_process_multielement_entries` (lines 114-167): enumerate all
`N`-combinations of entry indices, build a `MultiEntry` per feasible one, and
afterwards (lines 165-166, outside the loop) reference `super_entry` once
more, appending it again — a runtime name error when the loop never assigned
it. -/
def processMultielementEntries (linsolve : LinSolver)
    (elt_comp : List (String × ℚ)) (entries : List PBEntry) :
    Except PyError (List MultiEntry) :=
  let N := elt_comp.length
  let elt_list := elt_comp.map Prod.fst
  let composition_list := elt_comp.map Prod.snd
  let list_of_entries := combinations N (List.range entries.length)
  match synthLoop (processCombination linsolve elt_list composition_list entries)
      list_of_entries [] none with
  | .error err => .error err
  | .ok (_, none) => .error (.nameError "super_entry")
  | .ok (processed, some se) => .ok (processed ++ [se])

/-! ### Hull-space projection (`_create_conv_hull_data`, `_process_conv_hull_data`) -/

/-- Modelled from the spec: `Entry.scale` and the coupling of `correction`
into `g0` live in `pymatgen.analysis.pourbaix.entry`, which is not part of
this source tree.  Per the spec's projector contract, scaling multiplies the
coordinate fields `npH`, `nPhi`, `g0` by the factor, and the correction term
`−MU_H2O·nH2O + conc_term` added to `correction` is combined into `g0`. -/
def projectEntry (e : PBEntry) : PBEntry :=
  let f := e.normalization_factor
  let scaled := { e with npH := e.npH * f, nPhi := e.nPhi * f, g0 := e.g0 * f }
  let corr := -MU_H2O * scaled.nH2O + scaled.conc_term
  { scaled with correction := scaled.correction + corr, g0 := scaled.g0 + corr }

/-- `_process_conv_hull_data` (lines 100-112): read each entry's
`(npH, nPhi, g0)` row, pair rows with their entries, stable-sort the pairs by
the row's third coordinate, and unzip. -/
def processConvHullData (qentries : List PBEntry) :
    List (List ℚ) × List PBEntry :=
  let data := qentries.map (fun e => [e.npH, e.nPhi, e.g0])
  let temp := data.zip qentries
  let sortedTemp :=
    temp.mergeSort (fun x y => decide (x.1.getD 2 0 ≤ y.1.getD 2 0))
  (sortedTemp.map Prod.fst, sortedTemp.map Prod.snd)

/-- `_create_conv_hull_data` (lines 84-98) for a working entry list: project
every entry, then build and sort the hull data. -/
def createConvHullData (working : List PBEntry) : List (List ℚ) × List PBEntry :=
  processConvHullData (working.map projectEntry)

/-! ### Lower-envelope selection (`_make_pourbaixdiagram`) -/

/-- Component `k` of a point row (numpy-style indexing, 0 when out of range —
never reached on the length-3 rows the pipeline builds). -/
def pget (p : List ℚ) (k : ℕ) : ℚ := p.getD k 0

/-- Componentwise difference of 3-rows. -/
def vsub (p q : List ℚ) : List ℚ :=
  [pget p 0 - pget q 0, pget p 1 - pget q 1, pget p 2 - pget q 2]

/-- `np.cross` on 3-rows. -/
def cross3 (a b : List ℚ) : List ℚ :=
  [pget a 1 * pget b 2 - pget a 2 * pget b 1,
   pget a 2 * pget b 0 - pget a 0 * pget b 2,
   pget a 0 * pget b 1 - pget a 1 * pget b 0]

/-- `np.dot` on 3-rows. -/
def dot3 (a b : List ℚ) : ℚ :=
  pget a 0 * pget b 0 + pget a 1 * pget b 1 + pget a 2 * pget b 2

/-- Componentwise negation of a 3-row (`-n`). -/
def vneg (n : List ℚ) : List ℚ := [-pget n 0, -pget n 1, -pget n 2]

/-- The vertical-facet tolerance `1e-8` of line 196. -/
def detEps : ℚ := 1 / 100000000

/-- Lines 190-196: the facet matrix copies each vertex row of `qhull_data`
and overwrites column `dim−1 = 2` with 1; this is its determinant for the
3-dimensional facets the hull produces. -/
def facetDet (qdata : List (List ℚ)) (facet : List ℕ) : ℚ :=
  let r := fun v => qdata.getD v []
  let x := fun v => pget (r v) 0
  let y := fun v => pget (r v) 1
  let v0 := facet.getD 0 0
  let v1 := facet.getD 1 0
  let v2 := facet.getD 2 0
  x v0 * (y v1 - y v2) - y v0 * (x v1 - x v2) + (x v1 * y v2 - x v2 * y v1)

/-- Lines 188-200: keep only facets whose facet-matrix determinant exceeds
`1e-8` in absolute value. -/
def vertFacetsRemoved (qdata : List (List ℚ)) (facets : List (List ℕ)) :
    List (List ℕ) :=
  facets.filter (fun f => decide (detEps < |facetDet qdata f|))

/-- Lines 205-208: the set of vertices of the surviving facets. -/
def facetVerts (facets : List (List ℕ)) : Finset ℕ :=
  facets.foldl (fun s f => f.foldl (fun s v => insert v s) s) ∅

/-- Lines 209-212: the hull centre `c`, the componentwise `np.average` over
the surviving vertex set. -/
def centroid (qdata : List (List ℚ)) (vfr : List (List ℕ)) : List ℚ :=
  let verts := facetVerts vfr
  [(verts.sum fun v => pget (qdata.getD v []) 0) / (verts.card : ℚ),
   (verts.sum fun v => pget (qdata.getD v []) 1) / (verts.card : ℚ),
   (verts.sum fun v => pget (qdata.getD v []) 2) / (verts.card : ℚ)]

/-- Lines 214-217: `new_qhull_data`, the point list with every surviving
vertex shifted by `−c`. -/
def newQhullData (qdata : List (List ℚ)) (vfr : List (List ℕ)) (v : ℕ) :
    List ℚ :=
  if v ∈ facetVerts vfr then vsub (qdata.getD v []) (centroid qdata vfr)
  else qdata.getD v []

/-- Lines 221-227: the facet normal — cross product of the two edge vectors
from the facet's first (post-shift) vertex, sign-flipped when its dot product
with that vertex is negative. -/
def orientedNormal (qdata : List (List ℚ)) (vfr : List (List ℕ))
    (facet : List ℕ) : List ℚ :=
  let p0 := newQhullData qdata vfr (facet.getD 0 0)
  let p1 := newQhullData qdata vfr (facet.getD 1 0)
  let p2 := newQhullData qdata vfr (facet.getD 2 0)
  let a := vsub p1 p0
  let b := vsub p2 p0
  let n := cross3 a b
  if dot3 n p0 < 0 then vneg n else n

/-- Lines 220-234: of the non-vertical facets, keep those whose oriented
normal has third component `≤ 0`. -/
def finalFacets (qdata : List (List ℚ)) (facets : List (List ℕ)) :
    List (List ℕ) :=
  let vfr := vertFacetsRemoved qdata facets
  vfr.filter (fun f => decide (pget (orientedNormal qdata vfr f) 2 ≤ 0))

/-- Line 184: `np.sort` sorts each facet's indices ascending. -/
def sortedFacets (facets : List (List ℕ)) : List (List ℕ) :=
  facets.map (fun f => f.mergeSort (fun a b => decide (a ≤ b)))

/-- Lines 236-241: the loop collecting `stable_entries` over all retained
facets' vertices (a Python `set`). -/
def stableEntriesOf (qentries : List PBEntry) (facets : List (List ℕ)) :
    Finset PBEntry :=
  facets.foldl (fun s f => f.foldl (fun s v => insert (qentries.getD v dfltEntry) s) s) ∅

/-- The diagram state fixed by `_make_pourbaixdiagram` and exposed through the
read-only accessors `facets`, `qhull_data`, `qhull_entries`, `stable_entries`,
`vertices`. -/
structure Diagram where
  facets : List (List ℕ)
  qhull_data : List (List ℚ)
  qhull_entries : List PBEntry
  stable_entries : Finset PBEntry
  vertices : Finset ℕ
deriving DecidableEq

/-- `_make_pourbaixdiagram` (lines 169-242) downstream of the data build:
`dim` is the length of the first data row (an `IndexError` on an empty list);
fewer points than `dim` is a `StandardError`; exactly `dim` points short-cuts
to the single facet `range(dim)` with no filtering; otherwise the hull
primitive's facets are sorted, vertical facets are removed, and upper-hull
facets are removed.  The stable entries and vertices are collected from the
retained facets. -/
def makePourbaixdiagram (hull : List (List ℚ) → List (List ℕ))
    (qdata : List (List ℚ)) (qentries : List PBEntry) :
    Except PyError Diagram :=
  match qdata with
  | [] => .error .indexError
  | row0 :: rest =>
    let qd := row0 :: rest
    let dim := row0.length
    if qd.length < dim then
      .error (.standardError "Can only do elements with at-least 3 entries for now")
    else
      let facets :=
        if qd.length = dim then [List.range dim]
        else finalFacets qd (sortedFacets (hull qd))
      .ok { facets := facets, qhull_data := qd, qhull_entries := qentries,
            stable_entries := stableEntriesOf qentries facets,
            vertices := facetVerts facets }

/-- `__init__` in single-element mode (`comp_dict` empty): classify, build the
working set, derive the pourbaix element list from `entries[0]` (an
`IndexError` on an empty input), then build the diagram from the projected,
sorted hull data. -/
def pourbaixInitSingle (hull : List (List ℚ) → List (List ℕ))
    (entries : List PBEntry) : Except PyError Diagram := do
  let si ← classifyEntries entries
  let unprocessed := si.1 ++ si.2
  match entries.head? with
  | none => .error .indexError
  | some e0 =>
    let _pourbaix_elements :=
      (e0.comp.map Prod.fst).filter (fun s => !(s == "H" || s == "O"))
    let dq := createConvHullData unprocessed
    makePourbaixdiagram hull dq.1 dq.2

/-- A hull primitive returning no facets (usable where the primitive is never
consulted). -/
def emptyHull : List (List ℚ) → List (List ℕ) := fun _ => []

/-- Decidable equality for `Except` results, to evaluate concrete runs. -/
instance {ε α : Type} [DecidableEq ε] [DecidableEq α] : DecidableEq (Except ε α) :=
  fun x y =>
    match x, y with
    | .ok a, .ok b =>
      if h : a = b then .isTrue (by rw [h]) else .isFalse (fun hh => h (Except.ok.inj hh))
    | .ok _, .error _ => .isFalse (fun hh => Except.noConfusion hh)
    | .error _, .ok _ => .isFalse (fun hh => Except.noConfusion hh)
    | .error e, .error f =>
      if h : e = f then .isTrue (by rw [h]) else .isFalse (fun hh => h (Except.error.inj hh))

/-! ### Concrete data for evaluating the embedding -/

/-- A solid entry with coordinates `(0, 0, 0)` and trivial scaling. -/
def wA : PBEntry where
  phase_type := "Solid"
  comp := [("Mn", 1)]
  red_factor := 1
  npH := 0
  nPhi := 0
  g0 := 0
  normalization_factor := 1
  nH2O := 0
  conc_term := 0
  correction := 0

/-- A solid entry with coordinates `(1, 0, 1)`. -/
def wB : PBEntry := { wA with npH := 1, g0 := 1 }

/-- A solid entry with coordinates `(2, 0, 2)`; together with `wA` and `wB`
its `(npH, nPhi)` projections are collinear. -/
def wC : PBEntry := { wA with npH := 2, g0 := 2 }

/-- An ion entry with coordinates `(0, 1, 3)`. -/
def wD : PBEntry := { wA with phase_type := "Ion", nPhi := 1, g0 := 3 }

/-- The diagram the exact-dimension shortcut builds from `[wA, wB, wC]`
(three hull points whose `(npH, nPhi)` projections are collinear). -/
def diag3 : Diagram where
  facets := [[0, 1, 2]]
  qhull_data := [[0, 0, 0], [1, 0, 1], [2, 0, 2]]
  qhull_entries := [wA, wB, wC]
  stable_entries := stableEntriesOf [wA, wB, wC] [[0, 1, 2]]
  vertices := facetVerts [[0, 1, 2]]

/-- Four points of a standard tetrahedron, used as general-case hull data. -/
def data4 : List (List ℚ) := [[0, 0, 0], [1, 0, 0], [0, 1, 0], [0, 0, 1]]

/-- Entries paired with `data4` (their coordinate rows are `data4`). -/
def entries4 : List PBEntry :=
  [wA, { wA with npH := 1, g0 := 0 }, { wA with nPhi := 1, g0 := 0 },
   { wA with g0 := 1 }]

/-- A hull primitive answering the four faces of the `data4` tetrahedron. -/
def tetraHull : List (List ℚ) → List (List ℕ) :=
  fun _ => [[0, 1, 2], [0, 1, 3], [0, 2, 3], [1, 2, 3]]

/-- The diagram built from `data4`: the two vertical walls are removed by the
determinant filter and the face `[1, 2, 3]` by the normal filter. -/
def diag4 : Diagram where
  facets := finalFacets data4 (sortedFacets (tetraHull data4))
  qhull_data := data4
  qhull_entries := entries4
  stable_entries := stableEntriesOf entries4 (finalFacets data4 (sortedFacets (tetraHull data4)))
  vertices := facetVerts (finalFacets data4 (sortedFacets (tetraHull data4)))

/-- A two-element composition target. -/
def eltComp2 : List (String × ℚ) := [("Mn", 1/2), ("Fe", 1/2)]

/-- A two-entry pool for multi-element synthesis. -/
def wEntries2 : List PBEntry := [{ wA with comp := [("Mn", 1)] }, { wA with comp := [("Fe", 1)] }]

/-- A solver that always succeeds with the single weight `1`. -/
def linsolveOk : LinSolver := fun _ _ => .ok [1]

/-- A solver that always fails with a non-singular linear-algebra error. -/
def linsolveFail : LinSolver := fun _ _ => .linAlgFailure "Eigenvalues did not converge"

/-- A solver that always reports a singular matrix. -/
def linsolveSing : LinSolver := fun _ _ => .linAlgFailure "Singular matrix"

/-- The `MultiEntry` built from `wEntries2` under `linsolveOk`. -/
def meDemo : MultiEntry where
  entries := wEntries2
  weights := [1, 1]

/-- An entry whose phase type is neither `Solid` nor `Ion`. -/
def wGas : PBEntry := { wA with phase_type := "Gas" }

/-! ## Helper lemmas -/

theorem classifyEntries_error (entries : List PBEntry)
    (h : ∃ e ∈ entries, e.phase_type ≠ "Solid" ∧ e.phase_type ≠ "Ion") :
    classifyEntries entries = .error (.standardError phaseTypeErrMsg) := by
  induction entries with
  | nil => simp at h
  | cons e rest ih =>
    obtain ⟨x, hx, hxs, hxi⟩ := h
    by_cases hs : e.phase_type = "Solid"
    · have hrest : ∃ y ∈ rest, y.phase_type ≠ "Solid" ∧ y.phase_type ≠ "Ion" := by
        rcases List.mem_cons.mp hx with rfl | hmem
        · exact absurd hs hxs
        · exact ⟨x, hmem, hxs, hxi⟩
      simp [classifyEntries, hs, ih hrest]
    · by_cases hi : e.phase_type = "Ion"
      · have hrest : ∃ y ∈ rest, y.phase_type ≠ "Solid" ∧ y.phase_type ≠ "Ion" := by
          rcases List.mem_cons.mp hx with rfl | hmem
          · exact absurd hi hxi
          · exact ⟨x, hmem, hxs, hxi⟩
        simp [classifyEntries, hs, hi, ih hrest]
      · simp [classifyEntries, hs, hi]

theorem classifyEntries_ok (entries : List PBEntry) (s i : List PBEntry)
    (h : classifyEntries entries = .ok (s, i)) :
    s = entries.filter (fun e => e.phase_type == "Solid") ∧
      i = entries.filter (fun e => e.phase_type == "Ion") := by
  induction entries generalizing s i with
  | nil =>
    simp only [classifyEntries, Except.ok.injEq, Prod.mk.injEq] at h
    simp [← h.1, ← h.2]
  | cons e rest ih =>
    by_cases hs : e.phase_type = "Solid"
    · rcases hrest : classifyEntries rest with err | si
      · simp [classifyEntries, hs, hrest] at h
      · obtain ⟨s', i'⟩ := si
        rw [classifyEntries, if_pos hs, hrest] at h
        simp only [Except.ok.injEq, Prod.mk.injEq] at h
        obtain ⟨ihs, ihi⟩ := ih s' i' hrest
        simp [← h.1, ← h.2, List.filter_cons, hs, ihs, ihi]
    · by_cases hi : e.phase_type = "Ion"
      · rcases hrest : classifyEntries rest with err | si
        · simp [classifyEntries, hs, hi, hrest] at h
        · obtain ⟨s', i'⟩ := si
          rw [classifyEntries, if_neg hs, if_pos hi, hrest] at h
          simp only [Except.ok.injEq, Prod.mk.injEq] at h
          obtain ⟨ihs, ihi⟩ := ih s' i' hrest
          simp [← h.1, ← h.2, List.filter_cons, hs, hi, ihs, ihi]
      · simp [classifyEntries, hs, hi] at h

theorem synthLoop_all_skip (step : List ℕ → Except PyError (Option MultiEntry)) :
    ∀ (combos : List (List ℕ)) (acc : List MultiEntry) (last : Option MultiEntry),
      (∀ c ∈ combos, step c = .ok none) →
      synthLoop step combos acc last = .ok (acc, last) := by
  intro combos
  induction combos with
  | nil => intro acc last _; rfl
  | cons c rest ih =>
    intro acc last h
    have hc : step c = .ok none := h c (by simp)
    simp only [synthLoop, hc]
    exact ih acc last (fun d hd => h d (by simp [hd]))

theorem synthLoop_last (step : List ℕ → Except PyError (Option MultiEntry)) :
    ∀ (combos : List (List ℕ)) (acc : List MultiEntry) (last : Option MultiEntry)
      (r : List MultiEntry × Option MultiEntry),
      synthLoop step combos acc last = .ok r → acc.getLast? = last →
      r.1.getLast? = r.2 := by
  intro combos
  induction combos with
  | nil =>
    intro acc last r h hl
    simp only [synthLoop, Except.ok.injEq] at h
    simp [← h, hl]
  | cons c rest ih =>
    intro acc last r h hl
    rcases hc : step c with err | ose
    · simp [synthLoop, hc] at h
    · rcases ose with _ | se
      · simp only [synthLoop, hc] at h
        exact ih acc last r h hl
      · simp only [synthLoop, hc] at h
        exact ih (acc ++ [se]) (some se) r h (List.getLast?_concat acc)

theorem synthLoop_all_good (P : MultiEntry → Prop)
    (step : List ℕ → Except PyError (Option MultiEntry))
    (hstep : ∀ c se, step c = .ok (some se) → P se) :
    ∀ (combos : List (List ℕ)) (acc : List MultiEntry) (last : Option MultiEntry)
      (r : List MultiEntry × Option MultiEntry),
      synthLoop step combos acc last = .ok r → (∀ me ∈ acc, P me) →
      ∀ me ∈ r.1, P me := by
  intro combos
  induction combos with
  | nil =>
    intro acc last r h hacc
    simp only [synthLoop, Except.ok.injEq] at h
    subst h
    exact hacc
  | cons c rest ih =>
    intro acc last r h hacc
    rcases hc : step c with err | ose
    · simp [synthLoop, hc] at h
    · rcases ose with _ | se
      · simp only [synthLoop, hc] at h
        exact ih acc last r h hacc
      · simp only [synthLoop, hc] at h
        refine ih (acc ++ [se]) (some se) r h ?_
        intro me hme
        rcases List.mem_append.mp hme with hme | hme
        · exact hacc me hme
        · simp only [List.mem_singleton] at hme
          subst hme
          exact hstep c me hc

theorem processCombination_feasible (linsolve : LinSolver) (elt_list : List String)
    (composition_list : List ℚ) (entries : List PBEntry) (c : List ℕ) (se : MultiEntry)
    (h : processCombination linsolve elt_list composition_list entries c = .ok (some se)) :
    se.weights.head? = some 1 ∧ ∀ w ∈ se.weights, 0 < w := by
  simp only [processCombination] at h
  rcases hsv : linsolve (aMatrix elt_list composition_list
      (c.map (fun j => entries.getD j dfltEntry)))
      (bVec elt_list composition_list (entries.getD (c.getD 0 0) dfltEntry))
    with w | msg
  · simp only [hsv] at h
    by_cases hall : w.all (fun x => decide (0 < x)) = true
    · rw [if_pos hall] at h
      obtain hse := Except.ok.inj h
      obtain hse := Option.some.inj hse
      subst hse
      refine ⟨rfl, ?_⟩
      intro x hx
      rcases List.mem_cons.mp hx with rfl | hx
      · norm_num
      · exact of_decide_eq_true (List.all_eq_true.mp hall x hx)
    · rw [if_neg hall] at h
      exact absurd (Except.ok.inj h) (by simp)
  · simp only [hsv] at h
    by_cases hmsg : hasSub "Singular matrix" msg = true
    · rw [if_pos hmsg] at h
      exact absurd (Except.ok.inj h) (by simp)
    · rw [if_neg hmsg] at h
      exact Except.noConfusion h

theorem mem_foldl_insert (g : ℕ → PBEntry) :
    ∀ (f : List ℕ) (s0 : Finset PBEntry) (e : PBEntry),
      (e ∈ f.foldl (fun s v => insert (g v) s) s0 ↔ e ∈ s0 ∨ ∃ v ∈ f, g v = e) := by
  intro f
  induction f with
  | nil => intro s0 e; simp
  | cons v vs ih =>
    intro s0 e
    rw [List.foldl_cons, ih]
    simp only [Finset.mem_insert, List.mem_cons]
    constructor
    · rintro ((rfl | hs) | ⟨u, hu, hg⟩)
      · exact Or.inr ⟨v, Or.inl rfl, rfl⟩
      · exact Or.inl hs
      · exact Or.inr ⟨u, Or.inr hu, hg⟩
    · rintro (hs | ⟨u, (rfl | hu), hg⟩)
      · exact Or.inl (Or.inr hs)
      · exact Or.inl (Or.inl hg.symm)
      · exact Or.inr ⟨u, hu, hg⟩

theorem mem_stableEntriesOf (qentries : List PBEntry) (facets : List (List ℕ))
    (e : PBEntry) :
    e ∈ stableEntriesOf qentries facets ↔
      ∃ f ∈ facets, ∃ v ∈ f, qentries.getD v dfltEntry = e := by
  have key : ∀ (fs : List (List ℕ)) (s0 : Finset PBEntry),
      (e ∈ fs.foldl (fun s f => f.foldl (fun s v => insert (qentries.getD v dfltEntry) s) s) s0 ↔
        e ∈ s0 ∨ ∃ f ∈ fs, ∃ v ∈ f, qentries.getD v dfltEntry = e) := by
    intro fs
    induction fs with
    | nil => intro s0; simp
    | cons f rest ih =>
      intro s0
      rw [List.foldl_cons, ih, mem_foldl_insert]
      simp only [List.mem_cons]
      constructor
      · rintro ((hs | ⟨v, hv, hg⟩) | ⟨f', hf', hx⟩)
        · exact Or.inl hs
        · exact Or.inr ⟨f, Or.inl rfl, v, hv, hg⟩
        · exact Or.inr ⟨f', Or.inr hf', hx⟩
      · rintro (hs | ⟨f', (rfl | hf'), hx⟩)
        · exact Or.inl (Or.inl hs)
        · exact Or.inl (Or.inr hx)
        · exact Or.inr ⟨f', hf', hx⟩
  rw [stableEntriesOf, key]
  simp

theorem makePourbaixdiagram_ok_fields (hull : List (List ℚ) → List (List ℕ))
    (qdata : List (List ℚ)) (qentries : List PBEntry) (d : Diagram)
    (hok : makePourbaixdiagram hull qdata qentries = .ok d) :
    d.qhull_data = qdata ∧ d.qhull_entries = qentries ∧
      d.stable_entries = stableEntriesOf qentries d.facets ∧
      d.vertices = facetVerts d.facets := by
  cases qdata with
  | nil => exact Except.noConfusion hok
  | cons row0 rest =>
    simp only [makePourbaixdiagram] at hok
    by_cases hlt : (row0 :: rest).length < row0.length
    · rw [if_pos hlt] at hok
      exact Except.noConfusion hok
    · rw [if_neg hlt] at hok
      obtain hd := Except.ok.inj hok
      subst hd
      exact ⟨rfl, rfl, rfl, rfl⟩

theorem makePourbaixdiagram_gt_facets (hull : List (List ℚ) → List (List ℕ))
    (row0 : List ℚ) (rest : List (List ℚ)) (qentries : List PBEntry) (d : Diagram)
    (hdim : row0.length = 3) (hgt : 3 < (row0 :: rest).length)
    (hok : makePourbaixdiagram hull (row0 :: rest) qentries = .ok d) :
    d.facets = finalFacets (row0 :: rest) (sortedFacets (hull (row0 :: rest))) := by
  simp only [makePourbaixdiagram] at hok
  rw [if_neg (by omega)] at hok
  obtain hd := Except.ok.inj hok
  subst hd
  simp only
  rw [if_neg (by omega)]

/-! ## Claim theorems -/

/-- C4: in multi-element mode, whenever the synthesizer returns at all (which
requires at least one feasible combination), the returned list ends with two
equal copies of the last-built `MultiEntry`: the post-loop append at lines
165-166 duplicates the loop's final `super_entry`. -/
theorem synth_output_ends_with_duplicate (linsolve : LinSolver)
    (elt_comp : List (String × ℚ)) (entries : List PBEntry) (lst : List MultiEntry)
    (h : processMultielementEntries linsolve elt_comp entries = .ok lst) :
    ∃ l se, lst = l ++ [se, se] := by
  simp only [processMultielementEntries] at h
  rcases hloop : synthLoop
      (processCombination linsolve (elt_comp.map Prod.fst) (elt_comp.map Prod.snd) entries)
      (combinations elt_comp.length (List.range entries.length)) [] none
    with err | r
  · rw [hloop] at h
    exact Except.noConfusion h
  · obtain ⟨processed, olast⟩ := r
    rw [hloop] at h
    rcases olast with _ | se
    · exact Except.noConfusion h
    · obtain hlst := Except.ok.inj h
      have hlast : processed.getLast? = some se :=
        synthLoop_last _ _ [] none (processed, some se) hloop rfl
      obtain ⟨l, hl⟩ := List.getLast?_eq_some_iff.mp hlast
      exact ⟨l, se, by rw [← hlst, hl, List.append_assoc]; rfl⟩

/-- C4 witness: with a solver returning the single weight `1`, the two-entry
pool yields the list `[meDemo, meDemo]`, ending in the duplicate. -/
theorem synth_output_ends_with_duplicate_witness :
    ∃ l se, ([meDemo, meDemo] : List MultiEntry) = l ++ [se, se] :=
  synth_output_ends_with_duplicate linsolveOk eltComp2 wEntries2 [meDemo, meDemo] rfl

/-- C5: every `MultiEntry` the synthesizer outputs has weight vector
`1.0` followed by the solved weights, all strictly positive (the
`np.all(weights > 0)` filter at line 158 discards everything else). -/
theorem synth_weights_positive (linsolve : LinSolver)
    (elt_comp : List (String × ℚ)) (entries : List PBEntry) (lst : List MultiEntry)
    (me : MultiEntry)
    (h : processMultielementEntries linsolve elt_comp entries = .ok lst)
    (hme : me ∈ lst) :
    me.weights.head? = some 1 ∧ ∀ w ∈ me.weights, 0 < w := by
  simp only [processMultielementEntries] at h
  rcases hloop : synthLoop
      (processCombination linsolve (elt_comp.map Prod.fst) (elt_comp.map Prod.snd) entries)
      (combinations elt_comp.length (List.range entries.length)) [] none
    with err | r
  · rw [hloop] at h
    exact Except.noConfusion h
  · obtain ⟨processed, olast⟩ := r
    rw [hloop] at h
    rcases olast with _ | se
    · exact Except.noConfusion h
    · obtain hlst := Except.ok.inj h
      have hgood : ∀ x ∈ processed, x.weights.head? = some 1 ∧ ∀ w ∈ x.weights, 0 < w := by
        intro x hx
        exact synthLoop_all_good _ _
          (fun c y hy => processCombination_feasible linsolve _ _ entries c y hy)
          _ [] none (processed, some se) hloop (by simp) x hx
      have hse : se ∈ processed :=
        List.mem_of_getLast?_eq_some (synthLoop_last _ _ [] none (processed, some se) hloop rfl)
      rw [← hlst] at hme
      rcases List.mem_append.mp hme with hmem | hmem
      · exact hgood me hmem
      · simp only [List.mem_singleton] at hmem
        subst hmem
        exact hgood me hse

/-- C5 witness: the demo run returns `[meDemo, meDemo]`, and `meDemo`'s
weight vector is `[1, 1]`: head `1` and all weights positive. -/
theorem synth_weights_positive_witness :
    meDemo.weights.head? = some 1 ∧ ∀ w ∈ meDemo.weights, 0 < w :=
  synth_weights_positive linsolveOk eltComp2 wEntries2 [meDemo, meDemo] meDemo rfl
    (by simp)

/-- C7 (amended): when the per-combination solve fails with a linear-algebra
error whose message does not contain `Singular matrix`, the combination
processing aborts with the replacement `StandardError("Unknown Error
message!")` (line 157) — the original exception is not propagated; when the
message does contain `Singular matrix`, the combination is silently skipped
(line 155). -/
theorem nonsingular_failure_raises_standard_error (linsolve : LinSolver)
    (elt_list : List String) (composition_list : List ℚ) (entries : List PBEntry)
    (c : List ℕ) (msg : String)
    (hsv : linsolve (aMatrix elt_list composition_list
        (c.map (fun j => entries.getD j dfltEntry)))
        (bVec elt_list composition_list (entries.getD (c.getD 0 0) dfltEntry)) =
      .linAlgFailure msg) :
    (hasSub "Singular matrix" msg = false →
      processCombination linsolve elt_list composition_list entries c =
        .error (.standardError "Unknown Error message!")) ∧
    (hasSub "Singular matrix" msg = true →
      processCombination linsolve elt_list composition_list entries c = .ok none) := by
  constructor
  · intro hmsg
    simp only [processCombination, hsv]
    rw [if_neg (by simp [hmsg])]
  · intro hmsg
    simp only [processCombination, hsv]
    rw [if_pos hmsg]

/-- C7 witness: a solver failing with `"Eigenvalues did not converge"` makes
the combination processing raise the replacement `StandardError`. -/
theorem nonsingular_failure_raises_standard_error_witness :
    processCombination linsolveFail ["Mn", "Fe"] [1/2, 1/2] wEntries2 [0, 1] =
      .error (.standardError "Unknown Error message!") :=
  (nonsingular_failure_raises_standard_error linsolveFail ["Mn", "Fe"] [1/2, 1/2]
    wEntries2 [0, 1] "Eigenvalues did not converge" rfl).1 (by decide)

/-- C7 counterexample: the claim as stated — that the original exception is
re-raised — is false: the synthesizer surfaces
`StandardError("Unknown Error message!")`, which differs from the original
`LinAlgError("Eigenvalues did not converge")`. -/
theorem nonsingular_failure_not_original_error :
    processMultielementEntries linsolveFail eltComp2 wEntries2 =
      .error (.standardError "Unknown Error message!") ∧
    PyError.standardError "Unknown Error message!" ≠
      PyError.linAlgFailure "Eigenvalues did not converge" :=
  ⟨rfl, by decide⟩

/-- C8: an entry whose phase type is neither `Solid` nor `Ion` makes
classification — and hence the whole construction — fail with the phase-type
`StandardError` (the spec's `ConfigurationError`); on success, the solid and
ion lists are the input-order sublists of solids and ions, and their
concatenation (solids then ions) is the unprocessed working set. -/
theorem phase_classification (entries : List PBEntry) :
    ((∃ e ∈ entries, e.phase_type ≠ "Solid" ∧ e.phase_type ≠ "Ion") →
      classifyEntries entries = .error (.standardError phaseTypeErrMsg) ∧
      ∀ hull, pourbaixInitSingle hull entries = .error (.standardError phaseTypeErrMsg)) ∧
    (∀ s i, classifyEntries entries = .ok (s, i) →
      s = entries.filter (fun e => e.phase_type == "Solid") ∧
      i = entries.filter (fun e => e.phase_type == "Ion") ∧
      unprocessedEntries entries = .ok (s ++ i)) := by
  constructor
  · intro hbad
    have herr := classifyEntries_error entries hbad
    refine ⟨herr, fun hull => ?_⟩
    simp [pourbaixInitSingle, herr, Bind.bind, Except.bind]
  · intro s i hok
    obtain ⟨hs, hi⟩ := classifyEntries_ok entries s i hok
    exact ⟨hs, hi, by simp [unprocessedEntries, hok, Except.map]⟩

/-- C8 witness: a `"Gas"` entry is rejected with the phase-type error, and a
solid+ion input is split and concatenated in order. -/
theorem phase_classification_witness :
    classifyEntries [wGas] = .error (.standardError phaseTypeErrMsg) ∧
    unprocessedEntries [wD, wA] = .ok ([wA] ++ [wD]) :=
  ⟨((phase_classification [wGas]).1 ⟨wGas, by simp, by decide, by decide⟩).1,
   ((phase_classification [wD, wA]).2 [wA] [wD] rfl).2.2⟩

/-- C9: when every enumerated combination is skipped (singular system,
non-positive weights, or no combinations at all), the synthesizer does not
return an empty list: the post-loop reference to the never-assigned loop
variable `super_entry` fails as a name error. -/
theorem all_infeasible_name_error (linsolve : LinSolver)
    (elt_comp : List (String × ℚ)) (entries : List PBEntry)
    (h : ∀ c ∈ combinations elt_comp.length (List.range entries.length),
      processCombination linsolve (elt_comp.map Prod.fst) (elt_comp.map Prod.snd)
        entries c = .ok none) :
    processMultielementEntries linsolve elt_comp entries =
      .error (.nameError "super_entry") := by
  simp only [processMultielementEntries]
  rw [synthLoop_all_skip _ _ [] none h]

/-- C9 witness: with an always-singular solver on the two-entry pool, the
single combination is skipped and the run fails with the name error. -/
theorem all_infeasible_name_error_witness :
    processMultielementEntries linsolveSing eltComp2 wEntries2 =
      .error (.nameError "super_entry") :=
  all_infeasible_name_error linsolveSing eltComp2 wEntries2 (by decide)

/-- C1: the stable-entry set of every built diagram is exactly the set of
entries referenced by at least one retained facet's vertices (lines 236-241),
in both the exact-dimension shortcut and the general hull case. -/
theorem stable_entries_eq_facet_vertices (hull : List (List ℚ) → List (List ℕ))
    (qdata : List (List ℚ)) (qentries : List PBEntry) (d : Diagram)
    (hok : makePourbaixdiagram hull qdata qentries = .ok d) (e : PBEntry) :
    e ∈ d.stable_entries ↔ ∃ f ∈ d.facets, ∃ v ∈ f, d.qhull_entries.getD v dfltEntry = e := by
  obtain ⟨_, hqe, hst, _⟩ := makePourbaixdiagram_ok_fields hull qdata qentries d hok
  rw [hst, hqe, mem_stableEntriesOf]

/-- C1 witness: on the three-point diagram `diag3`, the entry `wA` is stable
because vertex 0 of the single facet references it. -/
theorem stable_entries_eq_facet_vertices_witness : wA ∈ diag3.stable_entries :=
  (stable_entries_eq_facet_vertices emptyHull [[0, 0, 0], [1, 0, 1], [2, 0, 2]]
    [wA, wB, wC] diag3 rfl wA).mpr ⟨[0, 1, 2], by decide, 0, by decide, rfl⟩

/-- C2: in the general hull case (more than `dim = 3` points), every retained
facet passed the upper-hull filter, so its oriented outward normal has third
(energy-axis) component `≤ 0` (lines 219-234). -/
theorem retained_facet_normal_nonpos (hull : List (List ℚ) → List (List ℕ))
    (row0 : List ℚ) (rest : List (List ℚ)) (qentries : List PBEntry) (d : Diagram)
    (hdim : row0.length = 3) (hgt : 3 < (row0 :: rest).length)
    (hok : makePourbaixdiagram hull (row0 :: rest) qentries = .ok d) :
    ∀ f ∈ d.facets,
      pget (orientedNormal (row0 :: rest)
        (vertFacetsRemoved (row0 :: rest) (sortedFacets (hull (row0 :: rest)))) f) 2 ≤ 0 := by
  intro f hf
  rw [makePourbaixdiagram_gt_facets hull row0 rest qentries d hdim hgt hok] at hf
  simp only [finalFacets] at hf
  obtain ⟨_, hp⟩ := List.mem_filter.mp hf
  exact of_decide_eq_true hp

unseal Rat.mul Rat.add Rat.sub Rat.inv List.merge List.mergeSort in
/-- C2 witness: on the tetrahedron diagram `diag4`, the retained facet
`[0, 1, 2]` has oriented normal `(0, 0, -1)`, whose third component is
non-positive. -/
theorem retained_facet_normal_nonpos_witness :
    pget (orientedNormal data4 (vertFacetsRemoved data4 (sortedFacets (tetraHull data4)))
      [0, 1, 2]) 2 ≤ 0 :=
  retained_facet_normal_nonpos tetraHull [0, 0, 0] [[1, 0, 0], [0, 1, 0], [0, 0, 1]]
    entries4 diag4 rfl (by decide) rfl [0, 1, 2] (by decide)

unseal Rat.mul Rat.add Rat.sub Rat.inv List.merge List.mergeSort in
/-- C3 counterexample: the claim extends the determinant invariant to the
exact-dimension (3 points) shortcut, but that shortcut performs no filtering:
from three entries whose `(npH, nPhi)` projections are collinear, construction
succeeds and exposes the facet `[0, 1, 2]` with `|det| = 0 ≤ 1e-8`. -/
theorem exact_dim_facet_degenerate :
    pourbaixInitSingle emptyHull [wA, wB, wC] = Except.ok diag3 ∧
    [0, 1, 2] ∈ diag3.facets ∧ |facetDet diag3.qhull_data [0, 1, 2]| ≤ detEps :=
  ⟨rfl, by decide, by decide⟩

/-- C3 (amended): for diagrams built from more than 3 hull points, every facet
exposed via the facets accessor passed the vertical-facet filter, so its
homogeneous-matrix determinant exceeds `1e-8` in absolute value; the facet
produced by the exact-dimension (3 points) shortcut is emitted without this
filter and may be degenerate. -/
theorem retained_facet_det_gt_eps (hull : List (List ℚ) → List (List ℕ))
    (row0 : List ℚ) (rest : List (List ℚ)) (qentries : List PBEntry) (d : Diagram)
    (hdim : row0.length = 3) (hgt : 3 < (row0 :: rest).length)
    (hok : makePourbaixdiagram hull (row0 :: rest) qentries = .ok d) :
    ∀ f ∈ d.facets, detEps < |facetDet (row0 :: rest) f| := by
  intro f hf
  rw [makePourbaixdiagram_gt_facets hull row0 rest qentries d hdim hgt hok] at hf
  simp only [finalFacets] at hf
  obtain ⟨hvf, _⟩ := List.mem_filter.mp hf
  simp only [vertFacetsRemoved] at hvf
  obtain ⟨_, hdet⟩ := List.mem_filter.mp hvf
  exact of_decide_eq_true hdet

unseal Rat.mul Rat.add Rat.sub Rat.inv List.merge List.mergeSort in
/-- C3 amended witness: on the tetrahedron diagram `diag4`, the retained facet
`[0, 1, 2]` has `|det| = 1 > 1e-8`. -/
theorem retained_facet_det_gt_eps_witness :
    detEps < |facetDet data4 [0, 1, 2]| :=
  retained_facet_det_gt_eps tetraHull [0, 0, 0] [[1, 0, 0], [0, 1, 0], [0, 0, 1]]
    entries4 diag4 rfl (by decide) rfl [0, 1, 2] (by decide)

theorem processConvHullData_pairs (qentries : List PBEntry) :
    ∀ p ∈ ((qentries.map (fun e => [e.npH, e.nPhi, e.g0])).zip qentries).mergeSort
        (fun x y => decide (x.1.getD 2 0 ≤ y.1.getD 2 0)),
      p.1 = [p.2.npH, p.2.nPhi, p.2.g0] := by
  intro p hp
  have hp' : p ∈ (qentries.map fun e => [e.npH, e.nPhi, e.g0]).zip qentries :=
    List.mem_mergeSort.mp hp
  clear hp
  induction qentries with
  | nil => simp at hp'
  | cons e rest ih =>
    simp only [List.map_cons, List.zip_cons_cons, List.mem_cons] at hp'
    rcases hp' with rfl | hp'
    · rfl
    · exact ih hp'

theorem pourbaixInitSingle_ok (hull : List (List ℚ) → List (List ℕ))
    (entries : List PBEntry) (d : Diagram)
    (hok : pourbaixInitSingle hull entries = .ok d) :
    ∃ working, d.qhull_data = (processConvHullData working).1 ∧
      d.qhull_entries = (processConvHullData working).2 := by
  rcases hcl : classifyEntries entries with err | si
  · simp [pourbaixInitSingle, hcl, Bind.bind, Except.bind] at hok
  · cases entries with
    | nil =>
      simp [pourbaixInitSingle, hcl, Bind.bind, Except.bind] at hok
    | cons e0 erest =>
      simp only [pourbaixInitSingle, hcl, Bind.bind, Except.bind, List.head?_cons] at hok
      obtain ⟨hqd, hqe, _, _⟩ := makePourbaixdiagram_ok_fields hull _ _ d hok
      exact ⟨(si.1 ++ si.2).map projectEntry, hqd, hqe⟩

/-- C6: for every diagram built in single-element mode, `qhull_data` and
`qhull_entries` have equal length, `qhull_data` is sorted ascending by its
third coordinate (the free energy `g0`), and every data row is the
`(npH, nPhi, g0)` triple of the entry at the same index — the pairing sort of
lines 109-111 keeps the two lists aligned. -/
theorem qhull_data_sorted_aligned (hull : List (List ℚ) → List (List ℕ))
    (entries : List PBEntry) (d : Diagram)
    (hok : pourbaixInitSingle hull entries = .ok d) :
    d.qhull_data.length = d.qhull_entries.length ∧
    List.Pairwise (fun p q => pget p 2 ≤ pget q 2) d.qhull_data ∧
    ∀ i, i < d.qhull_data.length →
      d.qhull_data.getD i [] =
        [(d.qhull_entries.getD i dfltEntry).npH, (d.qhull_entries.getD i dfltEntry).nPhi,
         (d.qhull_entries.getD i dfltEntry).g0] := by
  obtain ⟨w, hd, he⟩ := pourbaixInitSingle_ok hull entries d hok
  rw [hd, he]
  refine ⟨by simp [processConvHullData], ?_, ?_⟩
  · simp only [processConvHullData]
    rw [List.pairwise_map]
    have hs := @List.sorted_mergeSort (List ℚ × PBEntry)
      (fun x y => decide (x.1.getD 2 0 ≤ y.1.getD 2 0))
      (fun a b c h1 h2 => by
        simp only [decide_eq_true_eq] at h1 h2 ⊢
        exact le_trans h1 h2)
      (fun a b => by
        simp only [Bool.or_eq_true, decide_eq_true_eq]
        exact le_total _ _)
      ((w.map (fun e => [e.npH, e.nPhi, e.g0])).zip w)
    exact hs.imp (fun h => of_decide_eq_true h)
  · intro i hi
    simp only [processConvHullData] at hi ⊢
    simp only [List.length_map] at hi
    obtain ⟨p, hp⟩ : ∃ p,
        (((w.map (fun e => [e.npH, e.nPhi, e.g0])).zip w).mergeSort
          (fun x y => decide (x.1.getD 2 0 ≤ y.1.getD 2 0)))[i]? = some p :=
      ⟨_, List.getElem?_eq_getElem hi⟩
    have hmem := List.getElem?_mem hp
    have htriple := processConvHullData_pairs w p hmem
    rw [List.getD_eq_getElem?_getD, List.getD_eq_getElem?_getD,
      List.getElem?_map, List.getElem?_map, hp]
    simp [htriple]

unseal Rat.mul Rat.add Rat.sub Rat.inv List.merge List.mergeSort in
/-- C6 witness: on `diag3`, index 1 of the sorted data is the coordinate
triple of entry 1. -/
theorem qhull_data_sorted_aligned_witness :
    1 < diag3.qhull_data.length ∧
    diag3.qhull_data.getD 1 [] =
      [(diag3.qhull_entries.getD 1 dfltEntry).npH, (diag3.qhull_entries.getD 1 dfltEntry).nPhi,
       (diag3.qhull_entries.getD 1 dfltEntry).g0] :=
  ⟨by decide,
   (qhull_data_sorted_aligned emptyHull [wA, wB, wC] diag3 rfl).2.2 1 (by decide)⟩

/-- C10: in single-element mode an empty entry sequence passes classification
(`.ok ([], [])`) but fails with an `IndexError` at `entries[0]` while deriving
the pourbaix element list — before the insufficient-data `StandardError`
(fewer than 3 points) could ever be raised, and the two failures differ. -/
theorem empty_entries_index_error (hull : List (List ℚ) → List (List ℕ)) :
    pourbaixInitSingle hull [] = .error .indexError ∧
    classifyEntries ([] : List PBEntry) = .ok ([], []) ∧
    PyError.indexError ≠
      PyError.standardError "Can only do elements with at-least 3 entries for now" := by
  refine ⟨rfl, rfl, by decide⟩

end Pourbaix
